import Mathlib

/-!
Verification development for the resin CSS-in-JS preprocessor
(`src/resin_css_core.ts` plus the list helpers of `src/helpers.ts`).

The JavaScript source is shallowly embedded: strings are Lean `String`s
(lists of characters), the regex-based text transformations are spelled
out as explicit character-list scanners that implement the exact regex
semantics used by the source, and the insertion-ordered JavaScript
`Record` objects are association lists.  The JavaScript value
`undefined`, which the source lets flow into template strings, is
modelled by `Option String` together with `optStr`, which renders
`none` as the text "undefined" exactly as JS string interpolation does.

Every function is either structurally recursive or driven by an explicit
fuel argument that is always supplied with enough fuel, so all
definitions evaluate by kernel reduction.
-/

/-- ASCII whitespace recognised by the JavaScript `\s` class and
`String.prototype.trim` (the Unicode additions are irrelevant for CSS
sources, which are ASCII). -/
def isJsWhitespace (c : Char) : Bool :=
  c = ' ' || c = '\t' || c = '\n' || c = '\r' || c = '\x0b' || c = '\x0c'

/-- The JS regex class `\w` (used as `/\w$/` in `concatPathSegment`). -/
def isWordChar (c : Char) : Bool :=
  c.isAlphanum || c = '_'

/-- The JS regex class `[a-zA-Z.#*\[:]` (used as the segment-start test
in `concatPathSegment`). -/
def isSegStartChar (c : Char) : Bool :=
  c.isAlpha || c = '.' || c = '#' || c = '*' || c = '[' || c = ':'

/-- Characters of the class `[:{;~,]` whose surrounding whitespace is
stripped by the normalisation regex `/\s*([:{;~,])\s*/g`. -/
def isSpecialChar (c : Char) : Bool :=
  c = ':' || c = '{' || c = ';' || c = '~' || c = ','

/-- Characters of the class `[;{}]` after which the normalisation
inserts a newline. -/
def isBreakChar (c : Char) : Bool :=
  c = ';' || c = '{' || c = '}'

/-- Last character of a list satisfies `isWordChar` (JS `path.match(/\w$/)`;
an empty string has no match). -/
def lastIsWordChar (l : List Char) : Bool :=
  match l.getLast? with
  | some c => isWordChar c
  | none => false

/-- First character of a list satisfies `isSegStartChar`
(JS `seg.match(/^[a-zA-Z.#*\[:]/)`). -/
def headIsSegStartChar (l : List Char) : Bool :=
  match l.head? with
  | some c => isSegStartChar c
  | none => false

/-- JS `String.prototype.trim`. -/
def trimChars (l : List Char) : List Char :=
  ((l.dropWhile isJsWhitespace).reverse.dropWhile isJsWhitespace).reverse

/-- Prepend a character to the first piece of a split result (helper for
the splitting functions; a split result is always a nonempty list). -/
def consToHead (c : Char) : List (List Char) → List (List Char)
  | [] => [[c]]
  | h :: t => (c :: h) :: t

/-- JS `String.prototype.split` with a single-character separator:
`"".split(c)` is `[""]`, and a trailing separator yields a trailing
empty piece. -/
def splitCharList (c : Char) : List Char → List (List Char)
  | [] => [[]]
  | x :: rest =>
    if x = c then [] :: splitCharList c rest
    else consToHead x (splitCharList c rest)

/-- JS `"...".split("and")` as used by `combineMediaQueries`: split on
each leftmost, non-overlapping occurrence of the literal text `and`. -/
def splitOnAnd : List Char → List (List Char)
  | 'a' :: 'n' :: 'd' :: rest => [] :: splitOnAnd rest
  | c :: rest => consToHead c (splitOnAnd rest)
  | [] => [[]]

/-- JS `String.prototype.replace` with a global single-character
pattern, e.g. `seg.replace(/&/g, path)`. -/
def replaceCharList (c : Char) (repl : List Char) : List Char → List Char
  | [] => []
  | x :: rest =>
    if x = c then repl ++ replaceCharList c repl rest
    else x :: replaceCharList c repl rest

/-- JS `String.prototype.replaceAll` with a nonempty literal pattern
(leftmost, non-overlapping, the replacement is not rescanned), driven by
fuel; `replaceAllSub` supplies enough fuel for the whole input. -/
def replaceSubF (pat repl : List Char) : Nat → List Char → List Char
  | 0, s => s
  | _ + 1, [] => []
  | f + 1, c :: rest =>
    if pat.isPrefixOf (c :: rest) then
      repl ++ replaceSubF pat repl f ((c :: rest).drop pat.length)
    else
      c :: replaceSubF pat repl f rest

/-- JS `text.replaceAll(pat, repl)` for a nonempty pattern `pat`. -/
def replaceAllSub (pat repl s : List Char) : List Char :=
  replaceSubF pat repl (s.length + 1) s

/-- String wrapper for `splitCharList` (JS `srcPath.split(",")`). -/
def jsSplitChar (c : Char) (s : String) : List String :=
  (splitCharList c s.data).map String.mk

/-- String intercalation (JS `Array.prototype.join`). -/
def strIntercalate (sep : String) (xs : List String) : String :=
  ⟨List.intercalate sep.data (xs.map String.data)⟩

/-- JS template interpolation of a possibly-`undefined` string value:
`undefined` renders as the literal text "undefined". -/
def optStr : Option String → String
  | some s => s
  | none => "undefined"

/-- JS `topSelector.slice(1)`: drop the first character. -/
def jsSlice1 (s : String) : String :=
  ⟨s.data.drop 1⟩

/-- `arrayDiallel` from `helpers.ts`: all pairs `[a, b]` with `a` from
the first and `b` from the second array, in nested-loop order. -/
def arrayDiallel {α β : Type} (ar : List α) (br : List β) : List (α × β) :=
  ar.flatMap (fun a => br.map (fun b => (a, b)))

/-- `uniqueArrayItems` from `helpers.ts`
(`items.filter((it, index) => items.indexOf(it) == index)`): keep the
first occurrence of each element.  `seen` collects the elements already
emitted; the top-level entry point passes `[]`. -/
def uniqueItemsAux (seen : List String) : List String → List String
  | [] => []
  | x :: rest =>
    if x ∈ seen then uniqueItemsAux seen rest
    else x :: uniqueItemsAux (x :: seen) rest

/-- `uniqueArrayItems` from `helpers.ts` (specialised to strings, the
only instantiation the source uses on observable data). -/
def uniqueArrayItems (items : List String) : List String :=
  uniqueItemsAux [] items

/-- Insert one item into an insertion-ordered grouping (the body of the
`groupArrayItems` loop from `helpers.ts`). -/
def insertGrouped {α : Type} (key : String) (item : α) :
    List (String × List α) → List (String × List α)
  | [] => [(key, [item])]
  | (k, vs) :: rest =>
    if k = key then (k, vs ++ [item]) :: rest
    else (k, vs) :: insertGrouped key item rest

/-- `groupArrayItems` from `helpers.ts`: group by a string key into a
JS `Record`, modelled as an insertion-ordered association list. -/
def groupArrayItems {α : Type} (items : List α) (keyFn : α → String) :
    List (String × List α) :=
  items.foldl (fun acc it => insertGrouped (keyFn it) it acc) []

/-- `concatPathSegment` from `resin_css_core.ts`: if the segment
contains `&`, substitute the parent path for every `&` and trim;
otherwise join with a space exactly when the path ends in a word
character and the segment starts with a selector-start character. -/
def concatPathSegment (path seg : String) : String :=
  if seg.data.contains '&' then
    ⟨trimChars (replaceCharList '&' path.data seg.data)⟩
  else if lastIsWordChar path.data && headIsSegStartChar seg.data then
    path ++ " " ++ seg
  else
    path ++ seg

/-- `concatPathSegmentEx` from `resin_css_core.ts`: split both sides on
commas, compose every pair (cartesian product), rejoin with commas. -/
def concatPathSegmentEx (srcPath inputSeg : String) : String :=
  strIntercalate ","
    ((arrayDiallel (jsSplitChar ',' srcPath) (jsSplitChar ',' inputSeg)).map
      (fun z => concatPathSegment z.1 z.2))

/-- `combineSelectorPaths` from `resin_css_core.ts`.  On an empty array
the JS source evaluates `selectorPaths[0]`, which is `undefined`; this
is modelled as `none`. -/
def combineSelectorPaths : List String → Option String
  | [] => none
  | [x] => some x
  | head :: tail => some (tail.foldl concatPathSegmentEx head)

/-- Scan for the closing `*/` of a block comment.  The JS pattern
`/\/\*.*?\*\//g` uses `.`, which matches no line terminator, so a
comment only matches when `*/` occurs before any newline; the lazy
quantifier picks the first such occurrence. -/
def findCommentClose : List Char → Option (List Char)
  | '*' :: '/' :: rest => some rest
  | '\n' :: _ => none
  | '\r' :: _ => none
  | [] => none
  | _ :: rest => findCommentClose rest

/-- JS `.replace(/\/\*.*?\*\//g, "")`: drop each same-line block
comment; an unterminated `/*` is left in place (fuelled, the wrapper
supplies enough fuel). -/
def removeBlockCommentsF : Nat → List Char → List Char
  | 0, s => s
  | _ + 1, [] => []
  | f + 1, '/' :: '*' :: rest =>
    match findCommentClose rest with
    | some rest' => removeBlockCommentsF f rest'
    | none => '/' :: '*' :: removeBlockCommentsF f rest
  | f + 1, c :: rest => c :: removeBlockCommentsF f rest

/-- Scan for the terminating `\r?\n` of a line comment.  The JS
pattern `/\/\/.*\r?\n/g` has `.*` stop before any line terminator, so a
`\r` not followed by `\n` makes the match fail. -/
def findLineCommentEnd : List Char → Option (List Char)
  | '\n' :: rest => some rest
  | '\r' :: '\n' :: rest => some rest
  | '\r' :: _ => none
  | [] => none
  | _ :: rest => findLineCommentEnd rest

/-- JS `.replace(/\/\/.*\r?\n/g, "")`: drop each `//` comment together
with its terminating newline; a `//` with no following newline stays. -/
def removeLineCommentsF : Nat → List Char → List Char
  | 0, s => s
  | _ + 1, [] => []
  | f + 1, '/' :: '/' :: rest =>
    match findLineCommentEnd rest with
    | some rest' => removeLineCommentsF f rest'
    | none => '/' :: '/' :: removeLineCommentsF f rest
  | f + 1, c :: rest => c :: removeLineCommentsF f rest

/-- JS `.replace(/\s*([:{;~,])\s*/g, (_, p1) => p1)`: delete any
whitespace run adjacent to one of the special characters (before it,
and the run that follows it). -/
def stripSpacesF : Nat → List Char → List Char
  | 0, s => s
  | _ + 1, [] => []
  | f + 1, c :: rest =>
    if isSpecialChar c then
      c :: stripSpacesF f (rest.dropWhile isJsWhitespace)
    else if isJsWhitespace c then
      match rest.dropWhile isJsWhitespace with
      | d :: rest' =>
        if isSpecialChar d then d :: stripSpacesF f (rest'.dropWhile isJsWhitespace)
        else c :: stripSpacesF f rest
      | [] => c :: stripSpacesF f rest
    else
      c :: stripSpacesF f rest

/-- JS `.replace(/&\s+\./g, "&.")`: collapse whitespace between `&` and
a following `.` (the match needs at least one whitespace character). -/
def ampDotF : Nat → List Char → List Char
  | 0, s => s
  | _ + 1, [] => []
  | f + 1, '&' :: c :: rest =>
    if isJsWhitespace c then
      match rest.dropWhile isJsWhitespace with
      | '.' :: rest' => '&' :: '.' :: ampDotF f rest'
      | _ => '&' :: ampDotF f (c :: rest)
    else '&' :: ampDotF f (c :: rest)
  | f + 1, c :: rest => c :: ampDotF f rest

/-- JS `.replace(/\r?\n/g, "")`: remove every `\r\n` pair and every
lone `\n` (a `\r` not followed by `\n` stays). -/
def removeNewlines : List Char → List Char
  | '\r' :: '\n' :: rest => removeNewlines rest
  | '\n' :: rest => removeNewlines rest
  | c :: rest => c :: removeNewlines rest
  | [] => []

/-- JS `.replace(/[;{}]/g, (m) => m + "\n")`: insert a newline after
every `;`, `{` and `}`. -/
def markLineBreaks : List Char → List Char
  | [] => []
  | c :: rest =>
    if isBreakChar c then c :: '\n' :: markLineBreaks rest
    else c :: markLineBreaks rest

/-- `transformCssBodyTextToNormalizedLines` from `resin_css_core.ts`:
remove comments, strip whitespace around `:{;~,`, glue `&` to a
following `.`, drop newlines, then cut after every `;`/`{`/`}` and
return the trimmed nonempty lines. -/
def transformCssBodyTextToNormalizedLines (cssBodyText : String) : List String :=
  let s0 := cssBodyText.data
  let s1 := removeBlockCommentsF (s0.length + 1) s0
  let s2 := removeLineCommentsF (s1.length + 1) s1
  let s3 := stripSpacesF (s2.length + 1) s2
  let s4 := ampDotF (s3.length + 1) s3
  let s5 := markLineBreaks (removeNewlines s4)
  (((splitCharList '\n' s5).map trimChars).filter (fun l => !l.isEmpty)).map String.mk

/-- JS `mq.replace(/^(@media|@container)\s/, "")`: strip a leading
at-rule keyword together with exactly one following whitespace
character. -/
def stripAtRuleHead (l : List Char) : List Char :=
  if "@media".data.isPrefixOf l && (l.drop 6).head?.any isJsWhitespace then
    l.drop 7
  else if "@container".data.isPrefixOf l && (l.drop 10).head?.any isJsWhitespace then
    l.drop 11
  else l

/-- The condition list one spec contributes in `combineMediaQueries`:
strip the at-rule keyword, split on the literal text `and`, trim each
piece. -/
def mediaConditions (spec : String) : List String :=
  ((splitOnAnd (stripAtRuleHead spec.data)).map trimChars).map String.mk

/-- JS `mediaQuerySpecs[0].split(" ")[0]`: the first space-separated
word of the first spec. -/
def firstSpaceWord (s : String) : String :=
  ⟨s.data.takeWhile (fun c => c ≠ ' ')⟩

/-- `combineMediaQueries` from `resin_css_core.ts`: flatten all
condition lists, deduplicate keeping first occurrences, rejoin with
` and `, and reattach the first spec's leading word. -/
def combineMediaQueries (mediaQuerySpecs : List String) : String :=
  match mediaQuerySpecs with
  | [] => ""
  | first :: _ =>
    let parts := uniqueArrayItems (mediaQuerySpecs.flatMap mediaConditions)
    firstSpaceWord first ++ " " ++ strIntercalate " and " parts

/-- A Rule Slot (`CssSlot` in `resin_css_core.ts`).  `selectorPath` is
`Option String` because `combineSelectorPaths` yields JS `undefined`
on an empty path list. -/
structure CssSlot where
  selectorPath : Option String
  groupRuleSpec : String
  cssLines : List String
deriving DecidableEq

/-- `it.startsWith("@keyframes")`. -/
def startsWithKeyframes (s : String) : Bool :=
  "@keyframes".data.isPrefixOf s.data

/-- `it.match(/^(@media|@container)/)` as a Boolean. -/
def isMediaOrContainer (s : String) : Bool :=
  "@media".data.isPrefixOf s.data || "@container".data.isPrefixOf s.data

/-- JS `Array.prototype.findIndex`: index of the first element
satisfying the predicate (`-1`, i.e. "not found", modelled as
`none`). -/
def jsFindIndex {α : Type} (p : α → Bool) : List α → Option Nat
  | [] => none
  | a :: l => if p a then some 0 else (jsFindIndex p l).map (fun i => i + 1)

/-- JS array indexing `l[n]` with a default for the out-of-range case
(the source only indexes in range). -/
def jsAt {α : Type} : List α → Nat → α → α
  | [], _, d => d
  | a :: _, 0, _ => a
  | _ :: l, n + 1, d => jsAt l n d

/-- The key-resolution step of `prepareCssSlot` from
`resin_css_core.ts`: produce `(groupRuleSpec, selectorPath)` for the
current Narrower stack.  If some Narrower starts with `@keyframes`, the
first such Narrower is the group-rule spec and only the Narrowers after
it form the selector path; otherwise the stack is partitioned into
conditional group rules and plain selectors. -/
def resolveSlotParts (narrowers : List String) : String × Option String :=
  match jsFindIndex startsWithKeyframes narrowers with
  | some i =>
    (jsAt narrowers i "", combineSelectorPaths (narrowers.drop (i + 1)))
  | none =>
    (combineMediaQueries (narrowers.filter isMediaOrContainer),
     combineSelectorPaths (narrowers.filter (fun it => !isMediaOrContainer it)))

/-- JS object property lookup (used for the `cssSlots` record and the
`classNameToSourceCssTextMap`), on insertion-ordered association
lists. -/
def lookupAssoc {α : Type} (key : String) : List (String × α) → Option α
  | [] => none
  | (k, v) :: rest => if k = key then some v else lookupAssoc key rest

/-- Lookup in the `cssSlots` record. -/
def lookupSlot (key : String) (slots : List (String × CssSlot)) : Option CssSlot :=
  lookupAssoc key slots

/-- The slot key `` `${groupRuleSpec}${selectorPath}` `` (JS renders an
`undefined` selector path as the text "undefined"). -/
def slotKeyOf (narrowers : List String) : String :=
  (resolveSlotParts narrowers).1 ++ optStr (resolveSlotParts narrowers).2

/-- `prepareCssSlot` from `resin_css_core.ts`: compute the slot key for
the current stack and create an empty slot for it if absent.  Returns
the key and the updated record. -/
def prepareCssSlot (narrowers : List String) (cssSlots : List (String × CssSlot)) :
    String × List (String × CssSlot) :=
  match lookupSlot (slotKeyOf narrowers) cssSlots with
  | some _ => (slotKeyOf narrowers, cssSlots)
  | none =>
    (slotKeyOf narrowers,
     cssSlots ++
       [(slotKeyOf narrowers,
         ⟨(resolveSlotParts narrowers).2, (resolveSlotParts narrowers).1, []⟩)])

/-- `cssSlots[slotKey].cssLines.push(line)`, total version: the entry
with the given key (keys are unique in a JS record) gets the line
appended; a missing key leaves the record unchanged
(`extractNestedCssE` below models the TypeError JS would raise there,
and the safety theorem shows the key is always present). -/
def pushCssLine (key line : String) : List (String × CssSlot) →
    List (String × CssSlot)
  | [] => []
  | (k, v) :: rest =>
    if k = key then
      (k, ⟨v.selectorPath, v.groupRuleSpec, v.cssLines ++ [line]⟩) :: rest
    else
      (k, v) :: pushCssLine key line rest

/-- JS `line.endsWith(c)` for a single character. -/
def endsWithChar (c : Char) (s : String) : Bool :=
  s.data.getLast? == some c

/-- JS `line.slice(0, line.length - 1)`. -/
def dropLastChar (s : String) : String :=
  ⟨s.data.dropLast⟩

/-- State of the scan loop in `extractNestedCss`. -/
structure ScanState where
  narrowers : List String
  slotKey : String
  cssSlots : List (String × CssSlot)

/-- One iteration of the scan loop of `extractNestedCss`: an open line
pushes a Narrower, a close line pops one (JS `Array.prototype.pop` on
an empty array is a no-op), anything else is a declaration appended to
the current slot. -/
def scanLine (st : ScanState) (line : String) : ScanState :=
  if endsWithChar '{' line then
    let ns := st.narrowers ++ [dropLastChar line]
    let r := prepareCssSlot ns st.cssSlots
    ⟨ns, r.1, r.2⟩
  else if endsWithChar '}' line then
    let ns := st.narrowers.dropLast
    let r := prepareCssSlot ns st.cssSlots
    ⟨ns, r.1, r.2⟩
  else
    ⟨st.narrowers, st.slotKey, pushCssLine st.slotKey line st.cssSlots⟩

/-- Initial scan state: the stack holds the top selector and its slot
is prepared. -/
def scanStateInit (topSelector : String) : ScanState :=
  let r := prepareCssSlot [topSelector] []
  ⟨[topSelector], r.1, r.2⟩

/-- The scan and prune phases of `extractNestedCss`: run the line scan,
then drop every slot whose declaration list is empty, yielding
`Object.values` of the pruned record in insertion order. -/
def extractNestedCssSlots (cssBodyText topSelector : String) : List CssSlot :=
  ((((transformCssBodyTextToNormalizedLines cssBodyText).foldl scanLine
      (scanStateInit topSelector)).cssSlots.filter
    (fun e => !e.2.cssLines.isEmpty)).map (fun e => e.2))

/-- `stringifyCssSlots` from `resin_css_core.ts`.  The JS source reads
`slots[0]`; callers only pass the nonempty groups produced by
`groupArrayItems`, and `stringifyCssSlotsE` models the exception on an
empty array. -/
def stringifyCssSlots (slots : List CssSlot) : String :=
  match slots with
  | [] => ""
  | s0 :: _ =>
    let cssContentLines := slots.map (fun slot =>
      optStr slot.selectorPath ++ "\x7b" ++ strIntercalate " " slot.cssLines ++ "\x7d")
    if s0.groupRuleSpec = "" then
      strIntercalate "\n" cssContentLines
    else
      s0.groupRuleSpec ++ "\x7b\n" ++
        strIntercalate "\n" (cssContentLines.map (fun line => "  " ++ line)) ++ "\n\x7d"

/-- The name captured by `/^@keyframes ([\w-]+)/` (the keyword, one
space, then a maximal nonempty run of word characters and hyphens). -/
def matchKeyframeName (spec : String) : Option String :=
  if "@keyframes ".data.isPrefixOf spec.data then
    match (spec.data.drop 11).takeWhile (fun c => isWordChar c || c = '-') with
    | [] => none
    | name => some ⟨name⟩
  else none

/-- `collectKeyframeNames` from `resin_css_core.ts`: the distinct
keyframe names among the slots' group-rule specs. -/
def collectKeyframeNames (slots : List CssSlot) : List String :=
  uniqueArrayItems
    ((slots.filter (fun slot => startsWithKeyframes slot.groupRuleSpec)).filterMap
      (fun slot => matchKeyframeName slot.groupRuleSpec))

/-- The renamed identifier `` `${topClassName}_${keyframeName}` `` used
by the keyframe-namespacing loop of `extractNestedCss`. -/
def keyframeRenamed (topSelector keyframeName : String) : String :=
  jsSlice1 topSelector ++ "_" ++ keyframeName

/-- The group/render/rename phases of `extractNestedCss`: group the
surviving slots by group-rule spec, stringify each group, join with
newlines, then rename every collected keyframe name throughout the
text. -/
def renderCssSlots (listSlots : List CssSlot) (topSelector : String) : String :=
  (collectKeyframeNames listSlots).foldl
    (fun txt name =>
      ⟨replaceAllSub name.data (keyframeRenamed topSelector name).data txt.data⟩)
    (strIntercalate "\n"
      ((groupArrayItems listSlots (fun slot => slot.groupRuleSpec)).map
        (fun g => stringifyCssSlots g.2)))

/-- `extractNestedCss` from `resin_css_core.ts`: normalise, scan,
prune, group, render, rename. -/
def extractNestedCss (cssBodyText topSelector : String) : String :=
  renderCssSlots (extractNestedCssSlots cssBodyText topSelector) topSelector

/-- `cssSlots[slotKey].cssLines.push(line)` with the TypeError JS
raises on a missing key modelled as `none`. -/
def pushCssLineE (key line : String) (slots : List (String × CssSlot)) :
    Option (List (String × CssSlot)) :=
  match lookupSlot key slots with
  | some _ => some (pushCssLine key line slots)
  | none => none

/-- Exception-aware variant of `scanLine`. -/
def scanLineE (st : ScanState) (line : String) : Option ScanState :=
  if endsWithChar '{' line then
    let ns := st.narrowers ++ [dropLastChar line]
    let r := prepareCssSlot ns st.cssSlots
    some ⟨ns, r.1, r.2⟩
  else if endsWithChar '}' line then
    let ns := st.narrowers.dropLast
    let r := prepareCssSlot ns st.cssSlots
    some ⟨ns, r.1, r.2⟩
  else
    (pushCssLineE st.slotKey line st.cssSlots).map
      (fun s => ⟨st.narrowers, st.slotKey, s⟩)

/-- Exception-aware variant of `stringifyCssSlots`: reading
`slots[0].groupRuleSpec` on an empty array would raise a TypeError. -/
def stringifyCssSlotsE (slots : List CssSlot) : Option String :=
  match slots with
  | [] => none
  | s0 :: rest => some (stringifyCssSlots (s0 :: rest))

/-- `extractNestedCss` with every JS operation that could raise an
exception (property access on a possibly-`undefined` object) made
explicit in the `Option` monad.  The safety theorem shows it always
succeeds and agrees with `extractNestedCss`. -/
def extractNestedCssE (cssBodyText topSelector : String) : Option String :=
  ((transformCssBodyTextToNormalizedLines cssBodyText).foldlM scanLineE
      (scanStateInit topSelector)).bind
    (fun final =>
      ((groupArrayItems
          ((final.cssSlots.filter (fun e => !e.2.cssLines.isEmpty)).map (fun e => e.2))
          (fun slot => slot.groupRuleSpec)).mapM
        (fun g => stringifyCssSlotsE g.2)).map
        (fun strs =>
          (collectKeyframeNames
              ((final.cssSlots.filter (fun e => !e.2.cssLines.isEmpty)).map
                (fun e => e.2))).foldl
            (fun txt name =>
              ⟨replaceAllSub name.data (keyframeRenamed topSelector name).data txt.data⟩)
            (strIntercalate "\n" strs)))

/-- A JavaScript value appearing in a `css` template interpolation
position (`string | number | { sourceCssText } | boolean`, plus the
`null`/`undefined` the interpolator explicitly tests for).  Numbers are
modelled as integers; their textual form is decimal, as in JS. -/
inductive JsValue where
  | str : String → JsValue
  | num : Int → JsValue
  | bool : Bool → JsValue
  | null : JsValue
  | undef : JsValue

/-- JS `String(value)` / `value.toString()` for the values above. -/
def jsToString : JsValue → String
  | .str s => s
  | .num n => toString n
  | .bool b => if b then "true" else "false"
  | .null => "null"
  | .undef => "undefined"

/-- What one interpolated value appends to the accumulating text in
`extractCssTemplate`: a string that hits the class-name map (with a
truthy, i.e. nonempty, mapped text) contributes the mapped source CSS;
`false`, `null`, `undefined` and the empty string contribute nothing;
anything else contributes `value.toString()`. -/
def valueContribution (classMap : Option (List (String × String))) :
    JsValue → String
  | .str s =>
    (match classMap.bind (lookupAssoc s) with
     | some css => if css ≠ "" then css else if s = "" then "" else s
     | none => if s = "" then "" else s)
  | .bool b => if b then "true" else ""
  | .null => ""
  | .undef => ""
  | .num n => toString n

/-- The concatenation loop of `extractCssTemplate`: alternate literal
chunks and value contributions, ending with the final chunk.  Indexing
past the end of the literal-chunk array yields JS `undefined`, which
string concatenation renders as "undefined". -/
def interpolateConcat (classMap : Option (List (String × String))) :
    List String → List JsValue → String
  | tpl, [] => tpl.headD "undefined"
  | tpl, v :: vs =>
    tpl.headD "undefined" ++ valueContribution classMap v ++
      interpolateConcat classMap tpl.tail vs

/-- JS `.replace(/\s*\r?\n\s*/g, "")`: delete every maximal whitespace
run that contains a `\n` (runs without a newline stay). -/
def removeNewlineRunsF : Nat → List Char → List Char
  | 0, s => s
  | _ + 1, [] => []
  | f + 1, c :: rest =>
    if isJsWhitespace c then
      let run := c :: rest.takeWhile isJsWhitespace
      let rest' := rest.dropWhile isJsWhitespace
      if run.contains '\n' then removeNewlineRunsF f rest'
      else run ++ removeNewlineRunsF f rest'
    else c :: removeNewlineRunsF f rest

/-- `extractCssTemplate` from `resin_css_core.ts`: interpolate, then
post-process (drop newline runs, strip whitespace around `:{;~,`,
collapse `;;` to `;`). -/
def extractCssTemplate (template : List String) (values : List JsValue)
    (classNameToSourceCssTextMap : Option (List (String × String))) : String :=
  let text := (interpolateConcat classNameToSourceCssTextMap template values).data
  let t1 := removeNewlineRunsF (text.length + 1) text
  let t2 := stripSpacesF (t1.length + 1) t1
  ⟨replaceAllSub ";;".data ";".data t2⟩

/-- Spec-side formulation (for the amended C7): the class-name-map hit
of a value, if any — a string value mapped by the supplied map to a
truthy (nonempty) source CSS text. -/
def jsMapHit (classMap : Option (List (String × String))) : JsValue → Option String
  | .str s =>
    (match classMap.bind (lookupAssoc s) with
     | some css => if css = "" then none else some css
     | none => none)
  | _ => none

/-- Spec-side formulation (for the amended C7): the values the spec
lists as contributing nothing — `false`, `null`, `undefined`, and the
empty string. -/
def isOmittedValue : JsValue → Bool
  | .bool b => !b
  | .null => true
  | .undef => true
  | .str s => s == ""
  | .num _ => false

/-!  Helper lemmas.  -/

/-- The data of an appended string is the appended data. -/
theorem strData_append (a b : String) : (a ++ b).data = a.data ++ b.data := by
  cases a
  cases b
  rfl

/-- Rebuilding a string from its character list is the identity. -/
theorem strMk_data (s : String) : String.mk s.data = s := rfl

/-- `splitCharList` never returns an empty list of pieces. -/
theorem splitCharList_ne_nil (c : Char) (l : List Char) : splitCharList c l ≠ [] := by
  induction l with
  | nil => simp [splitCharList]
  | cons x rest ih =>
    simp only [splitCharList]
    split
    · simp
    · cases h : splitCharList c rest <;> simp [consToHead]

/-- No piece produced by `splitCharList` contains the separator. -/
theorem mem_splitCharList_not_mem (c : Char) (l : List Char) :
    ∀ p ∈ splitCharList c l, c ∉ p := by
  induction l with
  | nil =>
    intro p hp
    simp [splitCharList] at hp
    simp [hp]
  | cons x rest ih =>
    intro p hp
    simp only [splitCharList] at hp
    by_cases hx : x = c
    · rw [if_pos hx] at hp
      rcases List.mem_cons.mp hp with h | h
      · simp [h]
      · exact ih p h
    · rw [if_neg hx] at hp
      cases h : splitCharList c rest with
      | nil => exact absurd h (splitCharList_ne_nil c rest)
      | cons h0 t =>
        rw [h] at hp
        simp only [consToHead] at hp
        rcases List.mem_cons.mp hp with h1 | h1
        · subst h1
          intro hc
          rcases List.mem_cons.mp hc with h2 | h2
          · exact hx h2.symm
          · exact ih h0 (h ▸ List.mem_cons_self h0 t) h2
        · exact ih p (h ▸ List.mem_cons_of_mem h0 h1)

/-- Splitting a separator-free list yields a single piece. -/
theorem splitCharList_of_not_mem (c : Char) (l : List Char) (h : c ∉ l) :
    splitCharList c l = [l] := by
  induction l with
  | nil => rfl
  | cons x rest ih =>
    have hx : ¬x = c := fun he => h (he ▸ List.mem_cons_self x rest)
    have hr : c ∉ rest := fun hm => h (List.mem_cons_of_mem x hm)
    simp [splitCharList, hx, ih hr, consToHead]

/-- Splitting past a leading separator-free piece. -/
theorem splitCharList_append (c : Char) (p t : List Char) (h : c ∉ p) :
    splitCharList c (p ++ c :: t) = p :: splitCharList c t := by
  induction p with
  | nil => simp [splitCharList]
  | cons x p' ih =>
    have hx : ¬x = c := fun he => h (he ▸ List.mem_cons_self x p')
    have hr : c ∉ p' := fun hm => h (List.mem_cons_of_mem x hm)
    rw [List.cons_append]
    simp only [splitCharList, if_neg hx]
    rw [ih hr]
    simp [consToHead]

/-- `List.intercalate` on a single piece. -/
theorem intercalate_single {α : Type} (sep : List α) (x : List α) :
    List.intercalate sep [x] = x := by
  simp [List.intercalate]

/-- `List.intercalate` on at least two pieces. -/
theorem intercalate_cons₂ {α : Type} (sep x y : List α) (ys : List (List α)) :
    List.intercalate sep (x :: y :: ys) = x ++ sep ++ List.intercalate sep (y :: ys) := by
  simp [List.intercalate, List.intersperse]

/-- Splitting undoes intercalating separator-free nonempty parts. -/
theorem splitCharList_intercalate (c : Char) (parts : List (List Char))
    (hne : parts ≠ []) (hfree : ∀ p ∈ parts, c ∉ p) :
    splitCharList c (List.intercalate [c] parts) = parts := by
  induction parts with
  | nil => exact absurd rfl hne
  | cons p rest ih =>
    cases rest with
    | nil =>
      rw [intercalate_single]
      exact splitCharList_of_not_mem c p (hfree p (List.mem_cons_self p []))
    | cons q rest' =>
      rw [intercalate_cons₂]
      have hp : c ∉ p := hfree p (List.mem_cons_self p (q :: rest'))
      have : p ++ [c] ++ List.intercalate [c] (q :: rest') =
          p ++ c :: List.intercalate [c] (q :: rest') := by
        simp [List.append_assoc]
      rw [this, splitCharList_append c p _ hp]
      have hfree' : ∀ r ∈ q :: rest', c ∉ r := fun r hr =>
        hfree r (List.mem_cons_of_mem p hr)
      rw [ih (by simp) hfree']

/-- Membership in a char replacement comes from the replacement text or
the original. -/
theorem mem_replaceCharList (c : Char) (repl l : List Char) (x : Char)
    (hx : x ∈ replaceCharList c repl l) : x ∈ repl ∨ x ∈ l := by
  induction l with
  | nil => simp [replaceCharList] at hx
  | cons y rest ih =>
    simp only [replaceCharList] at hx
    by_cases hy : y = c
    · rw [if_pos hy] at hx
      rcases List.mem_append.mp hx with h | h
      · exact Or.inl h
      · rcases ih h with h' | h'
        · exact Or.inl h'
        · exact Or.inr (List.mem_cons_of_mem y h')
    · rw [if_neg hy] at hx
      rcases List.mem_cons.mp hx with h | h
      · exact Or.inr (h ▸ List.mem_cons_self y rest)
      · rcases ih h with h' | h'
        · exact Or.inl h'
        · exact Or.inr (List.mem_cons_of_mem y h')

/-- `dropWhile` keeps a subset of the elements. -/
theorem mem_of_mem_dropWhileChars (p : Char → Bool) (l : List Char) (x : Char)
    (hx : x ∈ l.dropWhile p) : x ∈ l := by
  induction l with
  | nil => simp [List.dropWhile] at hx
  | cons y rest ih =>
    cases hy : p y with
    | false =>
      simp only [List.dropWhile, hy] at hx
      exact hx
    | true =>
      simp only [List.dropWhile, hy] at hx
      exact List.mem_cons_of_mem y (ih hx)

/-- Trimming keeps a subset of the characters. -/
theorem mem_of_mem_trimChars (l : List Char) (x : Char)
    (hx : x ∈ trimChars l) : x ∈ l := by
  unfold trimChars at hx
  rw [List.mem_reverse] at hx
  have h1 := mem_of_mem_dropWhileChars isJsWhitespace _ x hx
  rw [List.mem_reverse] at h1
  exact mem_of_mem_dropWhileChars isJsWhitespace _ x h1

/-- Every character of a composed path segment comes from one of the
two inputs or is the inserted space. -/
theorem mem_concatPathSegment (path seg : String) (x : Char)
    (hx : x ∈ (concatPathSegment path seg).data) :
    x ∈ path.data ∨ x ∈ seg.data ∨ x = ' ' := by
  unfold concatPathSegment at hx
  by_cases hamp : seg.data.contains '&' = true
  · rw [if_pos hamp] at hx
    have h1 := mem_of_mem_trimChars _ x hx
    rcases mem_replaceCharList '&' path.data seg.data x h1 with h | h
    · exact Or.inl h
    · exact Or.inr (Or.inl h)
  · rw [if_neg hamp] at hx
    by_cases hj : (lastIsWordChar path.data && headIsSegStartChar seg.data) = true
    · rw [if_pos hj] at hx
      rw [strData_append, strData_append] at hx
      rcases List.mem_append.mp hx with h | h
      · rcases List.mem_append.mp h with h' | h'
        · exact Or.inl h'
        · simp at h'
          exact Or.inr (Or.inr h')
      · exact Or.inr (Or.inl h)
    · rw [if_neg hj] at hx
      rw [strData_append] at hx
      rcases List.mem_append.mp hx with h | h
      · exact Or.inl h
      · exact Or.inr (Or.inl h)

/-- Pair membership in the cartesian product. -/
theorem mem_arrayDiallel {α β : Type} (ar : List α) (br : List β)
    (z : α × β) (hz : z ∈ arrayDiallel ar br) : z.1 ∈ ar ∧ z.2 ∈ br := by
  unfold arrayDiallel at hz
  rcases List.mem_flatMap.mp hz with ⟨a, ha, hb⟩
  rcases List.mem_map.mp hb with ⟨b, hb', he⟩
  subst he
  exact ⟨ha, hb'⟩

/-- The cartesian product of nonempty lists is nonempty. -/
theorem arrayDiallel_ne_nil {α β : Type} (ar : List α) (br : List β)
    (ha : ar ≠ []) (hb : br ≠ []) : arrayDiallel ar br ≠ [] := by
  cases ar with
  | nil => exact absurd rfl ha
  | cons a ar' =>
    cases br with
    | nil => exact absurd rfl hb
    | cons b br' => simp [arrayDiallel]

/-- Reading back the data of a freshly built string. -/
theorem strData_mk (l : List Char) : (String.mk l).data = l := rfl

/-- A nonempty list maps to a nonempty list. -/
theorem map_ne_nil {α β : Type} (f : α → β) (l : List α) (h : l ≠ []) :
    l.map f ≠ [] := by
  cases l with
  | nil => exact absurd rfl h
  | cons a l' => simp

/-- Splitting on a character undoes joining comma-free nonempty
pieces. -/
theorem jsSplitChar_strIntercalate (ys : List String) (hne : ys ≠ [])
    (hfree : ∀ p ∈ ys, ',' ∉ p.data) :
    jsSplitChar ',' (strIntercalate "," ys) = ys := by
  unfold jsSplitChar strIntercalate
  rw [strData_mk]
  have hdata : ("," : String).data = [','] := rfl
  rw [hdata]
  rw [splitCharList_intercalate ',' (ys.map String.data)
    (map_ne_nil String.data ys hne)
    (fun p hp => by
      rcases List.mem_map.mp hp with ⟨s, hs, hps⟩
      exact hps ▸ hfree s hs)]
  rw [List.map_map]
  have hid : String.mk ∘ String.data = @id String := rfl
  rw [hid, List.map_id]

/-- C1: composing comma-separated selector lists expands to the full
cartesian product — splitting the composed result on commas gives
exactly the pairwise compositions of the comma-alternatives of the two
inputs, in nested-loop order — and flattening
`.x,.y{ .a,.b{color:red;} }` under scope `.s` yields exactly the four
selector paths `.s .x .a`, `.s .x .b`, `.s .y .a`, `.s .y .b` carrying
the one declaration. -/
theorem C1_selector_cartesian_product :
    (∀ srcPath inputSeg : String,
      jsSplitChar ',' (concatPathSegmentEx srcPath inputSeg) =
        (arrayDiallel (jsSplitChar ',' srcPath) (jsSplitChar ',' inputSeg)).map
          (fun z => concatPathSegment z.1 z.2)) ∧
    extractNestedCss ".x,.y\x7b .a,.b\x7bcolor:red;\x7d \x7d" ".s" =
      ".s .x .a,.s .x .b,.s .y .a,.s .y .b\x7bcolor:red;\x7d" ∧
    (arrayDiallel (jsSplitChar ',' ".x,.y") (jsSplitChar ',' ".a,.b")).length = 4 := by
  refine ⟨?_, by decide, by decide⟩
  intro srcPath inputSeg
  unfold concatPathSegmentEx
  apply jsSplitChar_strIntercalate
  · apply map_ne_nil
    apply arrayDiallel_ne_nil
    · exact map_ne_nil String.mk _ (splitCharList_ne_nil ',' srcPath.data)
    · exact map_ne_nil String.mk _ (splitCharList_ne_nil ',' inputSeg.data)
  · intro p hp
    rcases List.mem_map.mp hp with ⟨z, hz, hpz⟩
    have hz1 := (mem_arrayDiallel _ _ z hz).1
    have hz2 := (mem_arrayDiallel _ _ z hz).2
    rcases List.mem_map.mp hz1 with ⟨p1, hp1, he1⟩
    rcases List.mem_map.mp hz2 with ⟨p2, hp2, he2⟩
    intro hc
    rw [← hpz] at hc
    rcases mem_concatPathSegment z.1 z.2 ',' hc with h | h | h
    · rw [← he1, strData_mk] at h
      exact mem_splitCharList_not_mem ',' srcPath.data p1 hp1 h
    · rw [← he2, strData_mk] at h
      exact mem_splitCharList_not_mem ',' inputSeg.data p2 hp2 h
    · exact absurd h (by decide)

/-- C10: an unmatched closing brace pops the scope selector itself; the
resolved selector path for the empty stack is JS `undefined`, rendered
as the literal text `undefined`, so `flatten("}color:red;", ".s")`
returns exactly `undefined{color:red;}`. -/
theorem C10_underflow_renders_undefined :
    extractNestedCss "\x7dcolor:red;" ".s" = "undefined\x7bcolor:red;\x7d" ∧
    resolveSlotParts [] = ("", none) ∧
    optStr none = "undefined" := by
  refine ⟨by decide, by decide, rfl⟩

/-- C2: when the nested segment contains `&`, composition substitutes
the parent path for every `&` occurrence and trims; only `&`-free
segments use the space/adjacency join; and flattening
`.btn{ &:hover{color:blue;} }` under `.s` gives the selector
`.btn:hover` glued to its parent (`.s .btn:hover`), not a descendant
`:hover`. -/
theorem C2_parent_reference_substitution :
    (∀ path seg : String, seg.data.contains '&' = true →
      concatPathSegment path seg =
        String.mk (trimChars (replaceCharList '&' path.data seg.data))) ∧
    (∀ path seg : String, seg.data.contains '&' = false →
      concatPathSegment path seg =
        if lastIsWordChar path.data && headIsSegStartChar seg.data then
          path ++ " " ++ seg
        else
          path ++ seg) ∧
    extractNestedCss ".btn\x7b &:hover\x7bcolor:blue;\x7d \x7d" ".s" =
      ".s .btn:hover\x7bcolor:blue;\x7d" := by
  refine ⟨?_, ?_, by decide⟩
  · intro path seg h
    unfold concatPathSegment
    rw [if_pos h]
  · intro path seg h
    unfold concatPathSegment
    have hne : ¬(seg.data.contains '&' = true) := by
      rw [h]
      exact Bool.false_ne_true
    rw [if_neg hne]

/-- Closed instances of `C2_parent_reference_substitution`:
`&`-substitution at the claim's example pair, and the `&`-free
fallback. -/
theorem C2_parent_reference_substitution_witness :
    concatPathSegment ".btn" "&:hover" = ".btn:hover" ∧
    concatPathSegment ".s" ".btn" = ".s .btn" := by
  constructor
  · exact (C2_parent_reference_substitution.1 ".btn" "&:hover" (by decide)).trans
      (by decide)
  · exact (C2_parent_reference_substitution.2.1 ".s" ".btn" (by decide)).trans
      (by decide)

/-- Elements produced by `uniqueItemsAux` come from the input and avoid
the already-seen accumulator. -/
theorem mem_uniqueItemsAux (seen l : List String) (x : String)
    (hx : x ∈ uniqueItemsAux seen l) : x ∈ l ∧ x ∉ seen := by
  induction l generalizing seen with
  | nil => simp [uniqueItemsAux] at hx
  | cons y rest ih =>
    simp only [uniqueItemsAux] at hx
    by_cases hy : y ∈ seen
    · rw [if_pos hy] at hx
      rcases ih seen hx with ⟨h1, h2⟩
      exact ⟨List.mem_cons_of_mem y h1, h2⟩
    · rw [if_neg hy] at hx
      rcases List.mem_cons.mp hx with h | h
      · subst h
        exact ⟨List.mem_cons_self x rest, hy⟩
      · rcases ih (y :: seen) h with ⟨h1, h2⟩
        exact ⟨List.mem_cons_of_mem y h1,
          fun hs => h2 (List.mem_cons_of_mem y hs)⟩

/-- `uniqueItemsAux` yields a duplicate-free list. -/
theorem uniqueItemsAux_nodup (seen l : List String) :
    (uniqueItemsAux seen l).Nodup := by
  induction l generalizing seen with
  | nil => simp [uniqueItemsAux]
  | cons y rest ih =>
    simp only [uniqueItemsAux]
    by_cases hy : y ∈ seen
    · rw [if_pos hy]
      exact ih seen
    · rw [if_neg hy]
      refine List.nodup_cons.mpr ⟨?_, ih (y :: seen)⟩
      intro hmem
      exact (mem_uniqueItemsAux (y :: seen) rest y hmem).2
        (List.mem_cons_self y seen)

/-- `uniqueItemsAux` is a sublist of its input (stable first-occurrence
order). -/
theorem uniqueItemsAux_sublist (seen l : List String) :
    List.Sublist (uniqueItemsAux seen l) l := by
  induction l generalizing seen with
  | nil => simp [uniqueItemsAux]
  | cons y rest ih =>
    simp only [uniqueItemsAux]
    by_cases hy : y ∈ seen
    · rw [if_pos hy]
      exact (ih seen).cons y
    · rw [if_neg hy]
      exact (ih (y :: seen)).cons₂ y

/-- Every input element is either already seen or kept by
`uniqueItemsAux`. -/
theorem mem_uniqueItemsAux_of_mem (seen l : List String) (x : String)
    (hx : x ∈ l) : x ∈ seen ∨ x ∈ uniqueItemsAux seen l := by
  induction l generalizing seen with
  | nil => simp at hx
  | cons y rest ih =>
    simp only [uniqueItemsAux]
    by_cases hy : y ∈ seen
    · rw [if_pos hy]
      rcases List.mem_cons.mp hx with h | h
      · exact Or.inl (h ▸ hy)
      · exact ih seen h
    · rw [if_neg hy]
      rcases List.mem_cons.mp hx with h | h
      · exact Or.inr (h ▸ List.mem_cons_self y _)
      · rcases ih (y :: seen) h with h' | h'
        · rcases List.mem_cons.mp h' with h'' | h''
          · exact Or.inr (h'' ▸ List.mem_cons_self y _)
          · exact Or.inl h''
        · exact Or.inr (List.mem_cons_of_mem y h')

/-- C4: merging conditional group rules strips each spec's at-rule
keyword, splits on the literal `and`, trims, deduplicates keeping
stable first-occurrence order (the dedup is duplicate-free, a sublist
of the incoming condition sequence, and loses no condition), rejoins
with `and`, and reattaches the first spec's leading at-rule keyword;
the claim's two-spec example merges to one spec with each condition
once, in first-seen order. -/
theorem C4_media_query_merging :
    combineMediaQueries
        ["@media (min-width:600px) and (color)",
         "@media (color) and (min-width:600px)"] =
      "@media (min-width:600px) and (color)" ∧
    mediaConditions "@media (color) and (min-width:600px)" =
      ["(color)", "(min-width:600px)"] ∧
    (∀ specs : List String,
      (uniqueArrayItems (specs.flatMap mediaConditions)).Nodup ∧
      List.Sublist (uniqueArrayItems (specs.flatMap mediaConditions))
        (specs.flatMap mediaConditions) ∧
      ∀ x : String, x ∈ specs.flatMap mediaConditions ↔
        x ∈ uniqueArrayItems (specs.flatMap mediaConditions)) := by
  refine ⟨by decide, by decide, ?_⟩
  intro specs
  refine ⟨uniqueItemsAux_nodup [] _, uniqueItemsAux_sublist [] _, ?_⟩
  intro x
  constructor
  · intro hx
    rcases mem_uniqueItemsAux_of_mem [] _ x hx with h | h
    · simp at h
    · exact h
  · intro hx
    exact (mem_uniqueItemsAux [] _ x hx).1

/-- C3: in one flatten call a keyframe name is renamed to
`<scopeIdentifier>_<name>` (scope identifier = scope selector minus its
leading dot) consistently at the `@keyframes` declaration and at the
`animation-name` reference; and for two different class scope
selectors the renamed identifiers never coincide. -/
theorem C3_keyframe_namespacing :
    extractNestedCss
        ".box\x7banimation-name:spin;\x7d@keyframes spin\x7b0%\x7bopacity:0;\x7d100%\x7bopacity:1;\x7d\x7d"
        ".sc" =
      ".sc .box\x7banimation-name:sc_spin;\x7d\n@keyframes sc_spin\x7b\n  0%\x7bopacity:0;\x7d\n  100%\x7bopacity:1;\x7d\n\x7d" ∧
    (∀ s1 s2 name : String,
      s1.data.head? = some '.' → s2.data.head? = some '.' → s1 ≠ s2 →
      keyframeRenamed s1 name ≠ keyframeRenamed s2 name) := by
  refine ⟨by decide, ?_⟩
  intro s1 s2 name h1 h2 hne heq
  apply hne
  unfold keyframeRenamed jsSlice1 at heq
  have hdata : (String.mk (s1.data.drop 1) ++ "_" ++ name).data =
      (String.mk (s2.data.drop 1) ++ "_" ++ name).data := by
    rw [heq]
  rw [strData_append, strData_append, strData_append, strData_append,
    strData_mk, strData_mk] at hdata
  rw [List.append_assoc, List.append_assoc] at hdata
  have htails : s1.data.drop 1 = s2.data.drop 1 :=
    List.append_cancel_right hdata
  cases hc1 : s1.data with
  | nil => rw [hc1] at h1; simp at h1
  | cons c1 t1 =>
    cases hc2 : s2.data with
    | nil => rw [hc2] at h2; simp at h2
    | cons c2 t2 =>
      rw [hc1] at h1
      rw [hc2] at h2
      simp at h1 h2
      rw [hc1, hc2] at htails
      simp at htails
      have : s1.data = s2.data := by
        rw [hc1, hc2, h1, h2, htails]
      calc s1 = String.mk s1.data := rfl
        _ = String.mk s2.data := by rw [this]
        _ = s2 := rfl

/-- Closed instance of `C3_keyframe_namespacing`: the scopes `.aa` and
`.bb` give different renamed identifiers for the keyframe `spin`. -/
theorem C3_keyframe_namespacing_witness :
    keyframeRenamed ".aa" "spin" ≠ keyframeRenamed ".bb" "spin" :=
  C3_keyframe_namespacing.2 ".aa" ".bb" "spin" (by decide) (by decide) (by decide)

/-- C6: a Rule Slot with no declaration lines is pruned before
rendering — every slot surviving to the render phase has a nonempty
declaration list — and flattening `.empty{ .inner{} }` under `.s`
produces empty output text. -/
theorem C6_empty_slots_pruned :
    (∀ (body sel : String) (slot : CssSlot),
      slot ∈ extractNestedCssSlots body sel → slot.cssLines ≠ []) ∧
    extractNestedCss ".empty\x7b .inner\x7b\x7d \x7d" ".s" = "" := by
  refine ⟨?_, by decide⟩
  intro body sel slot hmem
  unfold extractNestedCssSlots at hmem
  rcases List.mem_map.mp hmem with ⟨e, he, hes⟩
  have hfilter := List.of_mem_filter he
  intro hnil
  rw [hes, hnil] at hfilter
  simp at hfilter

/-- Closed instance of `C6_empty_slots_pruned`: the single surviving
slot of `flatten("color:red;", ".s")` has a nonempty declaration
list. -/
theorem C6_empty_slots_pruned_witness :
    (CssSlot.mk (some ".s") "" ["color:red;"]).cssLines ≠ [] :=
  C6_empty_slots_pruned.1 "color:red;" ".s"
    (CssSlot.mk (some ".s") "" ["color:red;"]) (by decide)

/-- `jsFindIndex` over a clean prefix followed by a hit finds the hit's
position. -/
theorem jsFindIndex_append {α : Type} (p : α → Bool) (outer : List α)
    (kf : α) (inner : List α) (hkf : p kf = true)
    (houter : ∀ n ∈ outer, p n = false) :
    jsFindIndex p (outer ++ kf :: inner) = some outer.length := by
  induction outer with
  | nil => simp [jsFindIndex, hkf]
  | cons n outer' ih =>
    have hn : p n = false := houter n (List.mem_cons_self n outer')
    have hrest : ∀ x ∈ outer', p x = false := fun x hx =>
      houter x (List.mem_cons_of_mem n hx)
    simp only [List.cons_append, jsFindIndex]
    rw [hn]
    simp only [Bool.false_eq_true, if_false, List.append_eq]
    rw [ih hrest]
    rfl

/-- `jsFindIndex` finds nothing when the predicate is false
everywhere. -/
theorem jsFindIndex_eq_none {α : Type} (p : α → Bool) (l : List α)
    (h : ∀ n ∈ l, p n = false) : jsFindIndex p l = none := by
  induction l with
  | nil => rfl
  | cons n l' ih =>
    have hn : p n = false := h n (List.mem_cons_self n l')
    simp only [jsFindIndex]
    rw [hn]
    simp only [Bool.false_eq_true, if_false]
    rw [ih (fun x hx => h x (List.mem_cons_of_mem n hx))]
    rfl

/-- `jsAt` at the junction of an append. -/
theorem jsAt_append_length {α : Type} (outer : List α) (kf : α)
    (inner : List α) (d : α) :
    jsAt (outer ++ kf :: inner) outer.length d = kf := by
  induction outer with
  | nil => rfl
  | cons n outer' ih => exact ih

/-- `List.drop` past the junction of an append. -/
theorem drop_append_length_succ {α : Type} (outer : List α) (kf : α)
    (inner : List α) :
    (outer ++ kf :: inner).drop (outer.length + 1) = inner := by
  induction outer with
  | nil => rfl
  | cons n outer' ih => exact ih

/-- C5: whenever some Narrower on the stack begins with `@keyframes`,
key resolution takes that Narrower as the whole group-rule spec and
composes the selector path from only the Narrowers nested inside it —
the outer chain (selectors and `@media`/`@container` Narrowers alike)
is ignored entirely — while conditional-group merging
(`combineMediaQueries`) is used only for stacks with no keyframe
Narrower. -/
theorem C5_keyframe_grouping_precedence :
    (∀ (outer inner : List String) (kf : String),
      startsWithKeyframes kf = true →
      (∀ n ∈ outer, startsWithKeyframes n = false) →
      resolveSlotParts (outer ++ kf :: inner) =
        (kf, combineSelectorPaths inner)) ∧
    (∀ narrowers : List String,
      (∀ n ∈ narrowers, startsWithKeyframes n = false) →
      resolveSlotParts narrowers =
        (combineMediaQueries (narrowers.filter isMediaOrContainer),
         combineSelectorPaths
           (narrowers.filter (fun it => !isMediaOrContainer it)))) := by
  constructor
  · intro outer inner kf hkf houter
    unfold resolveSlotParts
    simp only [jsFindIndex_append startsWithKeyframes outer kf inner hkf houter]
    rw [jsAt_append_length, drop_append_length_succ]
  · intro narrowers h
    unfold resolveSlotParts
    simp only [jsFindIndex_eq_none startsWithKeyframes narrowers h]

/-- Closed instance of `C5_keyframe_grouping_precedence`: under the
stack `.s` / `@media (color)` / `@keyframes spin` / `0%`, the slot key
parts are the keyframe spec and the inner selector `0%` alone, and the
keyframe-free variant of the stack merges its media narrower. -/
theorem C5_keyframe_grouping_precedence_witness :
    resolveSlotParts [".s", "@media (color)", "@keyframes spin", "0%"] =
      ("@keyframes spin", some "0%") ∧
    resolveSlotParts [".s", "@media (color)"] =
      ("@media (color)", some ".s") := by
  constructor
  · exact (C5_keyframe_grouping_precedence.1 [".s", "@media (color)"] ["0%"]
      "@keyframes spin" (by decide) (by decide)).trans (by decide)
  · exact (C5_keyframe_grouping_precedence.2 [".s", "@media (color)"]
      (by decide)).trans (by decide)

/-- C7 counterexample: interpolation does not send every non-omitted
value to its textual form.  A string value that hits the class-name
map contributes the mapped source CSS text, not the string itself, and
the boolean `true` does reach textual rendering (contributing the text
`true`), contrary to the claim's "booleans excluded" parenthetical. -/
theorem C7_value_contribution_counterexample :
    extractCssTemplate ["", ""] [JsValue.str "cs_x"]
        (some [("cs_x", "color:red;")]) = "color:red;" ∧
    extractCssTemplate ["", ""] [JsValue.str "cs_x"]
        (some [("cs_x", "color:red;")]) ≠ jsToString (JsValue.str "cs_x") ∧
    extractCssTemplate ["x", ""] [JsValue.bool true] none = "xtrue" := by
  refine ⟨by decide, by decide, by decide⟩

/-- C7 (amended): for every value position, if the value is a string
hitting the supplied class-name map it contributes the mapped source
CSS text; otherwise a value equal to `false`, `null`, `undefined`, or
the empty string contributes nothing, and any other value contributes
its textual form (numbers as decimal text; `true` renders as the text
`true`).  The concrete template shows `false` contributing nothing and
the number `3` contributing `3`. -/
theorem C7_value_contribution_amended :
    (∀ (classMap : Option (List (String × String))) (v : JsValue),
      valueContribution classMap v =
        match jsMapHit classMap v with
        | some css => css
        | none => if isOmittedValue v then "" else jsToString v) ∧
    extractCssTemplate ["a:", ";b:", ";"] [JsValue.bool false, JsValue.num 3]
        none = "a:;b:3;" := by
  refine ⟨?_, by decide⟩
  intro classMap v
  cases v with
  | str s =>
    simp only [valueContribution, jsMapHit]
    cases h : classMap.bind (lookupAssoc s) with
    | none =>
      simp only [isOmittedValue, jsToString]
      by_cases hs : s = ""
      · simp [hs]
      · simp [hs]
    | some css =>
      by_cases hc : css = ""
      · simp only [hc]
        simp only [isOmittedValue, jsToString]
        by_cases hs : s = ""
        · simp [hs]
        · simp [hs]
      · simp [hc]
  | num n => rfl
  | bool b => cases b <;> rfl
  | null => rfl
  | undef => rfl

/-- The last character of a string extended by `;`. -/
theorem getLast_append_semi (d : String) :
    (d ++ ";").data.getLast? = some ';' := by
  rw [strData_append]
  have : (";" : String).data = [';'] := rfl
  rw [this]
  exact List.getLast?_concat d.data

/-- A line ending in `;` is neither an open nor a close line. -/
theorem endsWithChar_semi (d : String) :
    endsWithChar '{' (d ++ ";") = false ∧ endsWithChar '}' (d ++ ";") = false := by
  unfold endsWithChar
  rw [getLast_append_semi]
  exact ⟨rfl, rfl⟩

/-- `scanLine` on a declaration line only appends to the current
slot. -/
theorem scanLine_decl (st : ScanState) (line : String)
    (h1 : endsWithChar '{' line = false) (h2 : endsWithChar '}' line = false) :
    scanLine st line =
      ⟨st.narrowers, st.slotKey, pushCssLine st.slotKey line st.cssSlots⟩ := by
  unfold scanLine
  rw [if_neg (by rw [h1]; exact Bool.false_ne_true)]
  rw [if_neg (by rw [h2]; exact Bool.false_ne_true)]

/-- `pushCssLine` on the one-slot record appends the line to that
slot. -/
theorem pushCssLine_singleton (k line : String) (sp : Option String)
    (g : String) (acc : List String) :
    pushCssLine k line [(k, CssSlot.mk sp g acc)] =
      [(k, CssSlot.mk sp g (acc ++ [line]))] := by
  simp [pushCssLine]

/-- Scanning a sequence of declaration lines accumulates them, in
order, in the single prepared slot. -/
theorem foldl_scan_decl_lines (sel k : String) (sp : Option String)
    (g : String) (ds : List String) (acc : List String) :
    (ds.map (fun d => d ++ ";")).foldl scanLine
        (ScanState.mk [sel] k [(k, CssSlot.mk sp g acc)]) =
      ScanState.mk [sel] k
        [(k, CssSlot.mk sp g (acc ++ ds.map (fun d => d ++ ";")))] := by
  induction ds generalizing acc with
  | nil => simp
  | cons d0 rest ih =>
    simp only [List.map_cons, List.foldl_cons]
    rw [scanLine_decl _ _ (endsWithChar_semi d0).1 (endsWithChar_semi d0).2]
    simp only []
    rw [pushCssLine_singleton]
    rw [ih (acc ++ [d0 ++ ";"])]
    simp

/-- Joining a single string is that string. -/
theorem strIntercalate_single (sep x : String) :
    strIntercalate sep [x] = x := by
  unfold strIntercalate
  simp only [List.map_cons, List.map_nil]
  rw [intercalate_single]

/-- Key resolution for a stack holding only a plain scope selector. -/
theorem resolveSlotParts_single (sel : String)
    (hkf : startsWithKeyframes sel = false)
    (hmedia : isMediaOrContainer sel = false) :
    resolveSlotParts [sel] = ("", some sel) := by
  unfold resolveSlotParts
  rw [jsFindIndex_eq_none startsWithKeyframes [sel]
    (fun n hn => by rw [List.mem_singleton.mp hn]; exact hkf)]
  simp [List.filter, hmedia, combineMediaQueries, combineSelectorPaths]

/-- C9: flattening an already-flat input — a body whose normalised
lines are declaration lines only — returns the input itself rendered as
`scopeSelector{decls}` (whitespace-normalised, declarations
space-joined), i.e. flatten is the identity modulo whitespace
normalisation on flat input. -/
theorem C9_flat_input_identity :
    ∀ (body sel : String) (ds : List String),
      transformCssBodyTextToNormalizedLines body = ds.map (fun d => d ++ ";") →
      ds ≠ [] →
      startsWithKeyframes sel = false →
      isMediaOrContainer sel = false →
      extractNestedCss body sel =
        sel ++ "\x7b" ++ strIntercalate " " (ds.map (fun d => d ++ ";")) ++ "\x7d" := by
  intro body sel ds hnorm hne hkf hmedia
  unfold extractNestedCss extractNestedCssSlots
  rw [hnorm]
  have hinit : scanStateInit sel =
      ScanState.mk [sel] ("" ++ sel) [("" ++ sel, CssSlot.mk (some sel) "" [])] := by
    unfold scanStateInit prepareCssSlot slotKeyOf
    rw [resolveSlotParts_single sel hkf hmedia]
    rfl
  rw [hinit, foldl_scan_decl_lines]
  cases ds with
  | nil => exact absurd rfl hne
  | cons d0 rest =>
    simp only [List.map_cons, List.nil_append]
    have hfilter :
        List.filter (fun e => !e.2.cssLines.isEmpty)
          [("" ++ sel, CssSlot.mk (some sel) "" ((d0 ++ ";") :: rest.map (fun d => d ++ ";")))] =
          [("" ++ sel, CssSlot.mk (some sel) "" ((d0 ++ ";") :: rest.map (fun d => d ++ ";")))] := by
      simp [List.filter]
    simp only [hfilter, List.map_cons, List.map_nil]
    unfold renderCssSlots
    simp only [groupArrayItems, List.foldl_cons, List.foldl_nil, insertGrouped]
    simp only [List.map_cons, List.map_nil]
    unfold collectKeyframeNames
    have hkf0 : startsWithKeyframes
        (CssSlot.mk (some sel) "" ((d0 ++ ";") :: rest.map (fun d => d ++ ";"))).groupRuleSpec =
        false := rfl
    simp only [List.filter, hkf0, List.filterMap_nil]
    have huniq : uniqueArrayItems [] = [] := rfl
    rw [huniq]
    simp only [List.foldl_nil]
    unfold stringifyCssSlots
    simp only [List.map_cons, List.map_nil, if_pos rfl, if_true]
    have hX : strIntercalate "\n"
        [optStr (some sel) ++ "\x7b" ++
          strIntercalate " " ((d0 ++ ";") :: rest.map (fun d => d ++ ";")) ++ "\x7d"] =
        optStr (some sel) ++ "\x7b" ++
          strIntercalate " " ((d0 ++ ";") :: rest.map (fun d => d ++ ";")) ++ "\x7d" :=
      strIntercalate_single "\n" _
    rw [hX, hX]
    rfl

/-- Closed instance of `C9_flat_input_identity`: the flat body
`color:red;` under scope `.s` flattens to `.s{color:red;}`. -/
theorem C9_flat_input_identity_witness :
    extractNestedCss "color:red;" ".s" =
      ".s" ++ "\x7b" ++
        strIntercalate " " (["color:red"].map (fun d => d ++ ";")) ++ "\x7d" :=
  C9_flat_input_identity "color:red;" ".s" ["color:red"]
    (by decide) (by decide) (by decide) (by decide)

/-- Appending a fresh key to a record makes it found. -/
theorem lookupAssoc_append_none {α : Type} (k : String)
    (s : List (String × α)) (v : α) (h : lookupAssoc k s = none) :
    lookupAssoc k (s ++ [(k, v)]) = some v := by
  induction s with
  | nil => simp [lookupAssoc]
  | cons e rest ih =>
    obtain ⟨a, b⟩ := e
    simp only [lookupAssoc, List.cons_append] at h ⊢
    by_cases ha : a = k
    · rw [if_pos ha] at h
      exact absurd h (by simp)
    · rw [if_neg ha] at h
      rw [if_neg ha]
      exact ih h

/-- After `prepareCssSlot`, the returned key is present in the returned
record. -/
theorem prepareCssSlot_lookup (ns : List String)
    (slots : List (String × CssSlot)) :
    (lookupSlot (prepareCssSlot ns slots).1 (prepareCssSlot ns slots).2).isSome = true := by
  unfold prepareCssSlot
  cases h : lookupSlot (slotKeyOf ns) slots with
  | some v => simp [h]
  | none =>
    simp only [h]
    unfold lookupSlot at h ⊢
    rw [lookupAssoc_append_none _ _ _ h]
    rfl

/-- `pushCssLine` does not change which keys are present. -/
theorem lookupSlot_pushCssLine (k key line : String)
    (slots : List (String × CssSlot)) :
    (lookupSlot k (pushCssLine key line slots)).isSome =
      (lookupSlot k slots).isSome := by
  induction slots with
  | nil => rfl
  | cons e rest ih =>
    obtain ⟨a, v⟩ := e
    simp only [pushCssLine]
    by_cases hak : a = key
    · rw [if_pos hak]
      unfold lookupSlot lookupAssoc
      by_cases hk : a = k
      · simp [hk]
      · simp only [if_neg hk]
    · rw [if_neg hak]
      unfold lookupSlot lookupAssoc
      by_cases hk : a = k
      · simp [hk]
      · simp only [if_neg hk]
        exact ih

/-- When the current slot key is present, the exception-aware scan step
succeeds and agrees with the total one. -/
theorem scanLineE_some (st : ScanState) (line : String)
    (h : (lookupSlot st.slotKey st.cssSlots).isSome = true) :
    scanLineE st line = some (scanLine st line) := by
  unfold scanLineE scanLine
  by_cases h1 : endsWithChar '{' line = true
  · rw [if_pos h1, if_pos h1]
  · rw [if_neg h1, if_neg h1]
    by_cases h2 : endsWithChar '}' line = true
    · rw [if_pos h2, if_pos h2]
    · rw [if_neg h2, if_neg h2]
      unfold pushCssLineE
      cases hl : lookupSlot st.slotKey st.cssSlots with
      | none => rw [hl] at h; exact absurd h (by simp)
      | some v => simp

/-- The key-present invariant survives a scan step. -/
theorem scanLine_preserves_lookup (st : ScanState) (line : String)
    (h : (lookupSlot st.slotKey st.cssSlots).isSome = true) :
    (lookupSlot (scanLine st line).slotKey (scanLine st line).cssSlots).isSome = true := by
  unfold scanLine
  by_cases h1 : endsWithChar '{' line = true
  · rw [if_pos h1]
    exact prepareCssSlot_lookup _ _
  · rw [if_neg h1]
    by_cases h2 : endsWithChar '}' line = true
    · rw [if_pos h2]
      exact prepareCssSlot_lookup _ _
    · rw [if_neg h2]
      show (lookupSlot st.slotKey (pushCssLine st.slotKey line st.cssSlots)).isSome = true
      rw [lookupSlot_pushCssLine]
      exact h

/-- The monadic scan over any line sequence succeeds and agrees with
the total scan, given the key-present invariant. -/
theorem foldlM_scanLineE (lines : List String) :
    ∀ st : ScanState, (lookupSlot st.slotKey st.cssSlots).isSome = true →
      lines.foldlM scanLineE st = some (lines.foldl scanLine st) := by
  induction lines with
  | nil => intro st h; rfl
  | cons l rest ih =>
    intro st h
    rw [List.foldlM_cons, scanLineE_some st l h]
    show (rest.foldlM scanLineE (scanLine st l)) = _
    rw [ih (scanLine st l) (scanLine_preserves_lookup st l h), List.foldl_cons]

/-- `insertGrouped` keeps every group nonempty. -/
theorem insertGrouped_ne_nil {α : Type} (key : String) (item : α)
    (acc : List (String × List α)) (h : ∀ e ∈ acc, e.2 ≠ []) :
    ∀ e ∈ insertGrouped key item acc, e.2 ≠ [] := by
  induction acc with
  | nil =>
    intro e he
    simp only [insertGrouped] at he
    rcases List.mem_singleton.mp he with rfl
    simp
  | cons g rest ih =>
    obtain ⟨k, vs⟩ := g
    intro e he
    simp only [insertGrouped] at he
    by_cases hk : k = key
    · rw [if_pos hk] at he
      rcases List.mem_cons.mp he with rfl | hmem
      · simp
      · exact h e (List.mem_cons_of_mem _ hmem)
    · rw [if_neg hk] at he
      rcases List.mem_cons.mp he with rfl | hmem
      · exact h (k, vs) (List.mem_cons_self _ _)
      · exact ih (fun e' he' => h e' (List.mem_cons_of_mem _ he')) e hmem

/-- Every group produced by `groupArrayItems` is nonempty. -/
theorem groupArrayItems_ne_nil {α : Type} (items : List α) (f : α → String) :
    ∀ e ∈ groupArrayItems items f, e.2 ≠ [] := by
  have aux : ∀ (its : List α) (acc : List (String × List α)),
      (∀ e ∈ acc, e.2 ≠ []) →
      ∀ e ∈ its.foldl (fun acc it => insertGrouped (f it) it acc) acc, e.2 ≠ [] := by
    intro its
    induction its with
    | nil => intro acc h e he; exact h e he
    | cons it rest ih =>
      intro acc h e he
      exact ih (insertGrouped (f it) it acc)
        (insertGrouped_ne_nil (f it) it acc h) e he
  intro e he
  exact aux items [] (by intro e' he'; simp at he') e he

/-- On a nonempty group the exception-aware stringifier succeeds. -/
theorem stringifyCssSlotsE_some (slots : List CssSlot) (h : slots ≠ []) :
    stringifyCssSlotsE slots = some (stringifyCssSlots slots) := by
  cases slots with
  | nil => exact absurd rfl h
  | cons s rest => rfl

/-- Mapping the exception-aware stringifier over nonempty groups
succeeds. -/
theorem mapM_stringifyCssSlotsE (grouped : List (String × List CssSlot))
    (h : ∀ e ∈ grouped, e.2 ≠ []) :
    grouped.mapM (fun g => stringifyCssSlotsE g.2) =
      some (grouped.map (fun g => stringifyCssSlots g.2)) := by
  induction grouped with
  | nil => rfl
  | cons g rest ih =>
    rw [List.mapM_cons]
    rw [stringifyCssSlotsE_some g.2 (h g (List.mem_cons_self g rest))]
    rw [ih (fun e he => h e (List.mem_cons_of_mem g he))]
    rfl

/-- C8: flatten raises no exception on any input — every JS property
access that could throw (the slot-record access on a declaration line,
the `slots[0]` read while rendering) is made explicit in
`extractNestedCssE`, which succeeds on every input, unmatched braces
included, and returns the best-effort result of `extractNestedCss`. -/
theorem C8_flatten_total :
    ∀ cssBodyText topSelector : String,
      extractNestedCssE cssBodyText topSelector =
        some (extractNestedCss cssBodyText topSelector) := by
  intro body sel
  unfold extractNestedCssE extractNestedCss extractNestedCssSlots renderCssSlots
  have hinv : (lookupSlot (scanStateInit sel).slotKey
      (scanStateInit sel).cssSlots).isSome = true := by
    unfold scanStateInit
    exact prepareCssSlot_lookup [sel] []
  rw [foldlM_scanLineE (transformCssBodyTextToNormalizedLines body)
    (scanStateInit sel) hinv]
  rw [Option.some_bind]
  rw [mapM_stringifyCssSlotsE _ (groupArrayItems_ne_nil _ _)]
  rfl

